import Mathlib

/-!
Verification of the ocelotmc Minecraft-protocol server against its
natural-language specification.

The development shallowly embeds the relevant Rust code:

* byte streams are `List Nat` (each entry a `u8` value);
* machine integers are `Nat`/`Int` with explicit reductions modulo `2 ^ w`
  where the Rust code wraps (casts, shifts on fixed-width integers);
* fallible operations return `Except DecodeError`, with `DecodeError.eof`
  standing for `io::ErrorKind::UnexpectedEof` (a failed `read_exact`) and
  `DecodeError.invalidData` for `io::ErrorKind::InvalidData`.

Each definition is a direct transcription of the function it names, from
`ocelot-protocol/src/codec/mod.rs`, `ocelot-protocol/src/types.rs`,
`ocelot-types/src/lib.rs`, `ocelot-nbt/src/lib.rs` and `ocelot/src/main.rs`.
-/

/-- Error kinds of the fallible codec operations. -/
inductive DecodeError where
  | eof
  | invalidData
deriving DecidableEq, Repr

/-- The `u32` bit pattern of an `i32` value (Rust `v as u32`). -/
def toU32 (v : Int) : Nat := (v % (2 : Int) ^ 32).toNat

/-- The `i32` value carried by a `u32` bit pattern (Rust `v as i32`). -/
def toI32 (n : Nat) : Int := if n < 2 ^ 31 then (n : Int) else (n : Int) - 2 ^ 32

/-- The `u64` bit pattern of an `i64` value (Rust `v as u64`). -/
def toU64 (v : Int) : Nat := (v % (2 : Int) ^ 64).toNat

/-- The `i64` value carried by a `u64` bit pattern (Rust `v as i64`). -/
def toI64 (n : Nat) : Int := if n < 2 ^ 63 then (n : Int) else (n : Int) - 2 ^ 64

/-- The `i16` value carried by a `u16` bit pattern (Rust `v as i16`). -/
def toI16 (n : Nat) : Int := if n < 2 ^ 15 then (n : Int) else (n : Int) - 2 ^ 16

/-- Interpret the low `w` bits of an unsigned value as a `w`-bit
two's-complement signed integer. -/
def toSigned (w : Nat) (n : Nat) : Int :=
  if n < 2 ^ (w - 1) then (n : Int) else (n : Int) - 2 ^ w

/-- Big-endian byte encoding of the low `k` bytes of `n`
(Rust `to_be_bytes` on a `k`-byte integer, given `n < 256 ^ k`). -/
def beBytes : Nat → Nat → List Nat
  | 0, _ => []
  | k + 1, n => beBytes k (n / 256) ++ [n % 256]

/-- Read `k` bytes big-endian into an unsigned value
(Rust `read_exact` into a `k`-byte buffer followed by `from_be_bytes`):
the first `k` bytes of the stream are consumed, earlier bytes being more
significant. -/
def readBE : Nat → List Nat → Except DecodeError (Nat × List Nat)
  | 0, bs => .ok (0, bs)
  | k + 1, bs =>
    match readBE k bs with
    | .error e => .error e
    | .ok (v, r) =>
      match r with
      | [] => .error .eof
      | b :: r2 => .ok (v * 256 + b, r2)

/-! ### Arithmetic facts for the bit-level embeddings -/

theorem lor_low_high {p a : Nat} (m : Nat) (h : a < 2 ^ p) :
    a ||| m * 2 ^ p = m * 2 ^ p + a := by
  apply Nat.eq_of_testBit_eq
  intro j
  rw [Nat.mul_comm m (2 ^ p), Nat.testBit_or, Nat.testBit_mul_pow_two_add m h j,
    Nat.testBit_mul_pow_two]
  by_cases hj : j < p
  · have hge : ¬ j ≥ p := by omega
    simp [hj, hge]
  · have hge : j ≥ p := by omega
    have ha : Nat.testBit a j = false :=
      Nat.testBit_lt_two_pow (Nat.lt_of_lt_of_le h (Nat.pow_le_pow_right (by omega) hge))
    simp [hj, hge, ha]

theorem readBE_beBytes (k : Nat) :
    ∀ n rest, n < 256 ^ k → readBE k (beBytes k n ++ rest) = .ok (n, rest) := by
  induction k with
  | zero =>
    intro n rest h
    have : n = 0 := by omega
    subst this
    simp [beBytes, readBE]
  | succ k ih =>
    intro n rest h
    have hdiv : n / 256 < 256 ^ k := by
      rw [Nat.div_lt_iff_lt_mul (by omega)]
      calc n < 256 ^ (k + 1) := h
        _ = 256 ^ k * 256 := Nat.pow_succ ..
    show readBE (k + 1) (beBytes k (n / 256) ++ [n % 256] ++ rest) = _
    rw [List.append_assoc]
    have hrec := ih (n / 256) ([n % 256] ++ rest) hdiv
    rw [List.singleton_append] at hrec
    have hn : n / 256 * 256 + n % 256 = n := by omega
    simp [readBE, hrec, hn]

/-! ### VarInt / VarLong (`ocelot-protocol/src/codec/mod.rs`, lines 57-138)

The encode loop is shared verbatim between `VarInt::encode` and
`VarLong::encode` (only the width of the wrapped-around value differs, which
is already fixed by the value passed in).  On the unsigned value `v`:
`v & !0x7F == 0` is `v < 128`, the emitted continuation byte
`(v & 0x7F) | 0x80` is `v % 128 + 128`, and `v >>= 7` is `v / 128`. -/

def varEncodeLoop (v : Nat) : List Nat :=
  if h : v < 128 then [v]
  else (v % 128 + 128) :: varEncodeLoop (v / 128)
termination_by v
decreasing_by exact Nat.div_lt_self (by omega) (by omega)

/-- The decode loop shared by `VarInt::decode` and `VarLong::decode`,
parameterized by the accumulator width `w` (32 or 64).  Each iteration reads
one byte `b`, or-s `(b & 0x7F) << position` (wrapped to `w` bits, as the
Rust shift on the fixed-width accumulator does) into the accumulator, stops
when `b & 0x80 == 0`, and fails with `InvalidData` once
`position + 7 >= w` with the continuation bit still set. -/
def varDecodeLoop (w : Nat) : List Nat → Nat → Nat → Except DecodeError (Nat × List Nat)
  | [], _, _ => .error .eof
  | b :: rest, value, position =>
    let value2 := value ||| ((b &&& 127) <<< position) % 2 ^ w
    if b &&& 128 = 0 then .ok (value2, rest)
    else if position + 7 ≥ w then .error .invalidData
    else varDecodeLoop w rest value2 (position + 7)

namespace VarInt

/-- `VarInt::encode`: the encode loop on `self.0 as u32`. -/
def encode (v : Int) : List Nat := varEncodeLoop (toU32 v)

/-- `VarInt::decode`: the 32-bit decode loop; the accumulated bit pattern is
the `i32` result. -/
def decode (bs : List Nat) : Except DecodeError (Int × List Nat) :=
  match varDecodeLoop 32 bs 0 0 with
  | .error e => .error e
  | .ok (n, rest) => .ok (toI32 n, rest)

end VarInt

namespace VarLong

/-- `VarLong::encode`: the encode loop on `self.0 as u64`. -/
def encode (v : Int) : List Nat := varEncodeLoop (toU64 v)

/-- `VarLong::decode`: the 64-bit decode loop; the accumulated bit pattern is
the `i64` result. -/
def decode (bs : List Nat) : Except DecodeError (Int × List Nat) :=
  match varDecodeLoop 64 bs 0 0 with
  | .error e => .error e
  | .ok (n, rest) => .ok (toI64 n, rest)

end VarLong

/-- Decoding the encode loop's output with any tail appended recovers the
accumulated unsigned value: the generalized invariant of the
VarInt/VarLong round trip, proved by strong induction on the value.  The
final wrap `% 2 ^ w` never truncates because the value fits in the bits
remaining above `position`. -/
theorem varDecodeLoop_encodeLoop (w : Nat) :
    ∀ n value position rest, position < w → value < 2 ^ position →
      n < 2 ^ (w - position) →
      varDecodeLoop w (varEncodeLoop n ++ rest) value position =
        .ok (value + n * 2 ^ position, rest) := by
  intro n
  induction n using Nat.strong_induction_on with
  | _ n ih =>
    intro value position rest hpos hvalue hn
    by_cases h128 : n < 128
    · rw [varEncodeLoop, dif_pos h128, List.singleton_append]
      show (if n &&& 128 = 0 then
          Except.ok (value ||| ((n &&& 127) <<< position) % 2 ^ w, rest)
        else if position + 7 ≥ w then Except.error DecodeError.invalidData
        else varDecodeLoop w rest
          (value ||| ((n &&& 127) <<< position) % 2 ^ w) (position + 7)) = _
      have hseg : n &&& 127 = n := by
        have : n &&& 127 = n % 128 := Nat.and_pow_two_sub_one_eq_mod n 7
        omega
      have hcont : n &&& 128 = 0 := by
        have h2 : (128 : Nat) = 2 ^ 7 := by norm_num
        have ht : Nat.testBit n 7 = false := Nat.testBit_lt_two_pow (by omega)
        rw [h2, Nat.and_two_pow, ht]
        simp
      have hshift : (n <<< position) % 2 ^ w = n * 2 ^ position := by
        rw [Nat.shiftLeft_eq]
        apply Nat.mod_eq_of_lt
        calc n * 2 ^ position < 2 ^ (w - position) * 2 ^ position :=
              (Nat.mul_lt_mul_right (Nat.two_pow_pos position)).mpr hn
          _ = 2 ^ w := by rw [← Nat.pow_add]; congr 1; omega
      rw [hseg, hshift, if_pos hcont, lor_low_high n hvalue]
      have hcomm : n * 2 ^ position + value = value + n * 2 ^ position := by omega
      rw [hcomm]
    · rw [varEncodeLoop, dif_neg h128, List.cons_append]
      show (if (n % 128 + 128) &&& 128 = 0 then
          Except.ok (value ||| (((n % 128 + 128) &&& 127) <<< position) % 2 ^ w,
            varEncodeLoop (n / 128) ++ rest)
        else if position + 7 ≥ w then Except.error DecodeError.invalidData
        else varDecodeLoop w (varEncodeLoop (n / 128) ++ rest)
          (value ||| (((n % 128 + 128) &&& 127) <<< position) % 2 ^ w)
          (position + 7)) = _
      have hposlt : position + 7 < w := by
        by_contra hc
        have h7 : w - position ≤ 7 := by omega
        have : (2 : Nat) ^ (w - position) ≤ 2 ^ 7 :=
          Nat.pow_le_pow_right (by omega) h7
        omega
      have hseg : (n % 128 + 128) &&& 127 = n % 128 := by
        have : (n % 128 + 128) &&& 127 = (n % 128 + 128) % 128 :=
          Nat.and_pow_two_sub_one_eq_mod _ 7
        omega
      have hcont : ¬ (n % 128 + 128) &&& 128 = 0 := by
        have h2 : (128 : Nat) = 2 ^ 7 := by norm_num
        rw [h2, Nat.and_two_pow, Nat.testBit_to_div_mod]
        have hd : (n % 128 + 128) / 2 ^ 7 % 2 = 1 := by omega
        simp [hd]
      have hshift : ((n % 128) <<< position) % 2 ^ w = n % 128 * 2 ^ position := by
        rw [Nat.shiftLeft_eq]
        apply Nat.mod_eq_of_lt
        calc n % 128 * 2 ^ position < 128 * 2 ^ position :=
              (Nat.mul_lt_mul_right (Nat.two_pow_pos position)).mpr (by omega)
          _ = 2 ^ (position + 7) := by rw [Nat.pow_add]; ring
          _ < 2 ^ w := Nat.pow_lt_pow_right (by omega) hposlt
      rw [hseg, hshift, if_neg hcont,
        if_neg (by omega : ¬ position + 7 ≥ w),
        lor_low_high (n % 128) hvalue]
      have hacc : n % 128 * 2 ^ position + value < 2 ^ (position + 7) := by
        have h1 : n % 128 * 2 ^ position ≤ 127 * 2 ^ position :=
          Nat.mul_le_mul_right _ (by omega)
        have h2 : (128 : Nat) * 2 ^ position = 2 ^ (position + 7) := by
          rw [Nat.pow_add]; ring
        omega
      have hquot : n / 128 < 2 ^ (w - (position + 7)) := by
        have h1 : n / 128 < 2 ^ (w - position) / 2 ^ 7 := by
          rw [Nat.div_lt_iff_lt_mul (by omega)]
          have h2 : (2 : Nat) ^ (w - position) / 2 ^ 7 * 2 ^ 7 = 2 ^ (w - position) := by
            rw [Nat.div_mul_cancel]
            exact Nat.pow_dvd_pow 2 (by omega)
          calc n < 2 ^ (w - position) := hn
            _ = 2 ^ (w - position) / 2 ^ 7 * 2 ^ 7 := h2.symm
            _ = 2 ^ (w - position) / 2 ^ 7 * 128 := by norm_num
        have h3 : (2 : Nat) ^ (w - position) / 2 ^ 7 = 2 ^ (w - (position + 7)) := by
          rw [Nat.pow_div (by omega) (by omega), Nat.sub_sub]
        rw [h3] at h1
        exact h1
      rw [ih (n / 128) (Nat.div_lt_self (by omega) (by omega))
        (n % 128 * 2 ^ position + value) (position + 7) rest
        (by omega) hacc hquot]
      have hsum : n % 128 * 2 ^ position + value + n / 128 * 2 ^ (position + 7) =
          value + n * 2 ^ position := by
        have h2 : n / 128 * 2 ^ (position + 7) = n / 128 * 128 * 2 ^ position := by
          rw [Nat.pow_add]; ring
        have h3 : n % 128 * 2 ^ position + n / 128 * 128 * 2 ^ position =
            n * 2 ^ position := by
          have h4 : n % 128 + n / 128 * 128 = n := by omega
          calc n % 128 * 2 ^ position + n / 128 * 128 * 2 ^ position
              = (n % 128 + n / 128 * 128) * 2 ^ position := by ring
            _ = n * 2 ^ position := by rw [h4]
        omega
      rw [hsum]

theorem toI32_toU32 (v : Int) (hlo : -(2 ^ 31) ≤ v) (hhi : v < 2 ^ 31) :
    toI32 (toU32 v) = v := by
  unfold toI32 toU32
  split
  · omega
  · omega

theorem toI64_toU64 (v : Int) (hlo : -(2 ^ 63) ≤ v) (hhi : v < 2 ^ 63) :
    toI64 (toU64 v) = v := by
  unfold toI64 toU64
  split
  · omega
  · omega

theorem toU32_lt (v : Int) : toU32 v < 2 ^ 32 := by
  unfold toU32
  omega

theorem toU64_lt (v : Int) : toU64 v < 2 ^ 64 := by
  unfold toU64
  omega

/-- VarInt round trip with an arbitrary tail, for every `i32` value. -/
theorem varIntDecode_encode (v : Int) (rest : List Nat)
    (hlo : -(2 ^ 31) ≤ v) (hhi : v < 2 ^ 31) :
    VarInt.decode (VarInt.encode v ++ rest) = .ok (v, rest) := by
  unfold VarInt.decode VarInt.encode
  rw [varDecodeLoop_encodeLoop 32 (toU32 v) 0 0 rest (by omega) (by norm_num)
    (by simpa using toU32_lt v)]
  simp [toI32_toU32 v hlo hhi]

/-- VarLong round trip with an arbitrary tail, for every `i64` value. -/
theorem varLongDecode_encode (v : Int) (rest : List Nat)
    (hlo : -(2 ^ 63) ≤ v) (hhi : v < 2 ^ 63) :
    VarLong.decode (VarLong.encode v ++ rest) = .ok (v, rest) := by
  unfold VarLong.decode VarLong.encode
  rw [varDecodeLoop_encodeLoop 64 (toU64 v) 0 0 rest (by omega) (by norm_num)
    (by simpa using toU64_lt v)]
  simp [toI64_toU64 v hlo hhi]

/-- C1: for every 32-bit signed integer `v`, decoding the bytes produced by
VarInt-encoding `v` yields `v` again, and for every 64-bit signed integer
`v`, decoding the bytes produced by VarLong-encoding `v` yields `v` again. -/
theorem varint_varlong_roundtrip :
    (∀ v : Int, -(2 ^ 31) ≤ v → v < 2 ^ 31 →
      VarInt.decode (VarInt.encode v) = .ok (v, [])) ∧
    (∀ v : Int, -(2 ^ 63) ≤ v → v < 2 ^ 63 →
      VarLong.decode (VarLong.encode v) = .ok (v, [])) := by
  constructor
  · intro v hlo hhi
    have h := varIntDecode_encode v [] hlo hhi
    rwa [List.append_nil] at h
  · intro v hlo hhi
    have h := varLongDecode_encode v [] hlo hhi
    rwa [List.append_nil] at h

/-- Witness for C1 at the concrete values 25565 (VarInt) and -1 (VarLong). -/
theorem varint_varlong_roundtrip_witness :
    VarInt.decode (VarInt.encode 25565) = .ok (25565, []) ∧
    VarLong.decode (VarLong.encode (-1)) = .ok (-1, []) :=
  ⟨varint_varlong_roundtrip.1 25565 (by norm_num) (by norm_num),
   varint_varlong_roundtrip.2 (-1) (by norm_num) (by norm_num)⟩

/-- C5: VarInt decoding fails with `InvalidData` whenever more than the
5-byte maximum would be consumed: if the first five bytes all carry the
continuation bit, decoding fails without consuming a sixth byte (the result
does not depend on the bytes past the fifth); likewise VarLong decoding
fails once its 10-byte maximum would be exceeded. -/
theorem varint_varlong_max_size_fails :
    (∀ b1 b2 b3 b4 b5 rest, b1 &&& 128 ≠ 0 → b2 &&& 128 ≠ 0 → b3 &&& 128 ≠ 0 →
      b4 &&& 128 ≠ 0 → b5 &&& 128 ≠ 0 →
      VarInt.decode (b1 :: b2 :: b3 :: b4 :: b5 :: rest) = .error .invalidData) ∧
    (∀ b1 b2 b3 b4 b5 b6 b7 b8 b9 b10 rest,
      b1 &&& 128 ≠ 0 → b2 &&& 128 ≠ 0 → b3 &&& 128 ≠ 0 → b4 &&& 128 ≠ 0 →
      b5 &&& 128 ≠ 0 → b6 &&& 128 ≠ 0 → b7 &&& 128 ≠ 0 → b8 &&& 128 ≠ 0 →
      b9 &&& 128 ≠ 0 → b10 &&& 128 ≠ 0 →
      VarLong.decode (b1 :: b2 :: b3 :: b4 :: b5 :: b6 :: b7 :: b8 :: b9 ::
        b10 :: rest) = .error .invalidData) := by
  constructor
  · intro b1 b2 b3 b4 b5 rest h1 h2 h3 h4 h5
    have e : varDecodeLoop 32 (b1 :: b2 :: b3 :: b4 :: b5 :: rest) 0 0 =
        .error .invalidData := by
      simp only [varDecodeLoop, if_neg h1, if_neg h2, if_neg h3, if_neg h4, if_neg h5]
      norm_num
    unfold VarInt.decode
    rw [e]
  · intro b1 b2 b3 b4 b5 b6 b7 b8 b9 b10 rest h1 h2 h3 h4 h5 h6 h7 h8 h9 h10
    have e : varDecodeLoop 64 (b1 :: b2 :: b3 :: b4 :: b5 :: b6 :: b7 :: b8 ::
        b9 :: b10 :: rest) 0 0 = .error .invalidData := by
      simp only [varDecodeLoop, if_neg h1, if_neg h2, if_neg h3, if_neg h4,
        if_neg h5, if_neg h6, if_neg h7, if_neg h8, if_neg h9, if_neg h10]
      norm_num
    unfold VarLong.decode
    rw [e]

/-- Witness for C5 on the all-0x80 inputs of length 6 and 11. -/
theorem varint_varlong_max_size_fails_witness :
    VarInt.decode [128, 128, 128, 128, 128, 0] = .error .invalidData ∧
    VarLong.decode [128, 128, 128, 128, 128, 128, 128, 128, 128, 128, 0] =
      .error .invalidData :=
  ⟨varint_varlong_max_size_fails.1 128 128 128 128 128 [0]
      (by decide) (by decide) (by decide) (by decide) (by decide),
   varint_varlong_max_size_fails.2 128 128 128 128 128 128 128 128 128 128 [0]
      (by decide) (by decide) (by decide) (by decide) (by decide)
      (by decide) (by decide) (by decide) (by decide) (by decide)⟩

theorem varEncodeLoop_small (v : Nat) (h : v < 128) : varEncodeLoop v = [v] := by
  rw [varEncodeLoop]
  exact dif_pos h

theorem varEncodeLoop_large (v : Nat) (h : 128 ≤ v) :
    varEncodeLoop v = (v % 128 + 128) :: varEncodeLoop (v / 128) := by
  rw [varEncodeLoop]
  exact dif_neg (by omega)

/-- C6: VarInt encoding is byte-exact on the specified values, with the
specified encoded lengths (and VarLong(-1) takes 10 bytes). -/
theorem varint_encode_byte_exact :
    VarInt.encode 25565 = [0xdd, 0xc7, 0x01] ∧
    VarInt.encode (-1) = [0xff, 0xff, 0xff, 0xff, 0x0f] ∧
    VarInt.encode (-2147483648) = [0x80, 0x80, 0x80, 0x80, 0x08] ∧
    (VarInt.encode 0).length = 1 ∧
    (VarInt.encode 1).length = 1 ∧
    (VarInt.encode 2).length = 1 ∧
    (VarInt.encode 127).length = 1 ∧
    (VarInt.encode 128).length = 2 ∧
    (VarInt.encode 255).length = 2 ∧
    (VarInt.encode 25565).length = 3 ∧
    (VarInt.encode 2097151).length = 3 ∧
    (VarInt.encode 2147483647).length = 5 ∧
    (VarInt.encode (-1)).length = 5 ∧
    (VarLong.encode (-1)).length = 10 := by
  refine ⟨?_, ?_, ?_, ?_, ?_, ?_, ?_, ?_, ?_, ?_, ?_, ?_, ?_, ?_⟩ <;>
    simp [VarInt.encode, VarLong.encode, toU32, toU64,
      varEncodeLoop_small, varEncodeLoop_large]

/-! ### Position (`ocelot-protocol/src/types.rs`, lines 29-53)

`Position::encode` packs `x : i32`, `y : i16`, `z : i32` into one `i64`
`((x as i64 & 0x3FFFFFF) << 38) | ((z as i64 & 0x3FFFFFF) << 12) |
(y as i64 & 0xFFF)` and writes its 8 big-endian bytes; `Position::decode`
reads the `i64` and recovers the fields with arithmetic shifts:
`x = (val >> 38) as i32`, `y = (val << 52 >> 52) as i16`,
`z = (val << 26 >> 38) as i32`.  Masking a two's-complement value with
`0x3FFFFFF` (resp. `0xFFF`) is reduction mod `2 ^ 26` (resp. `2 ^ 12`), and
an arithmetic shift right by `k` is floor division of the signed value by
`2 ^ k`, which for a positive divisor is `Int` division. -/

/-- Arithmetic shift right by `k` of the `i64` whose `u64` bit pattern is
`n` (Rust `val >> k` on `i64`), as a signed value. -/
def asr64 (n : Nat) (k : Nat) : Int := toI64 n / (2 : Int) ^ k

/-- Rust `v as i32` applied to an `i64` value: truncate to the low 32 bits
and reinterpret. -/
def toI32of64 (v : Int) : Int := toI32 ((v % (2 : Int) ^ 32).toNat)

/-- Rust `v as i16` applied to an `i64` value: truncate to the low 16 bits
and reinterpret. -/
def toI16of64 (v : Int) : Int := toI16 ((v % (2 : Int) ^ 16).toNat)

namespace Position

/-- `Position::encode`: the packed `u64` bit pattern of the encoded `i64`,
written as its 8 big-endian bytes. -/
def encode (x y z : Int) : List Nat :=
  beBytes 8 ((((x % (2 : Int) ^ 26).toNat <<< 38) |||
    ((z % (2 : Int) ^ 26).toNat <<< 12)) |||
    (y % (2 : Int) ^ 12).toNat)

/-- `Position::decode`: read the big-endian `i64` and extract the three
fields by shifts.  `val << 52` and `val << 26` wrap in 64 bits, hence the
`% 2 ^ 64` on the shifted bit pattern. -/
def decode (bs : List Nat) : Except DecodeError ((Int × Int × Int) × List Nat) :=
  match readBE 8 bs with
  | .error e => .error e
  | .ok (n, rest) =>
    .ok ((toI32of64 (asr64 n 38),
          toI16of64 (asr64 ((n <<< 52) % 2 ^ 64) 52),
          toI32of64 (asr64 ((n <<< 26) % 2 ^ 64) 38)), rest)

end Position

/-- The packed Position word: the three disjoint bit fields or-ed together
equal their sum. -/
theorem positionPattern_eq (x y z : Int) :
    (((x % (2 : Int) ^ 26).toNat <<< 38) |||
      ((z % (2 : Int) ^ 26).toNat <<< 12)) |||
      (y % (2 : Int) ^ 12).toNat =
    (x % (2 : Int) ^ 26).toNat * 2 ^ 38 +
      (z % (2 : Int) ^ 26).toNat * 2 ^ 12 + (y % (2 : Int) ^ 12).toNat := by
  set a := (x % (2 : Int) ^ 26).toNat with ha_def
  set c := (z % (2 : Int) ^ 26).toNat with hc_def
  set b := (y % (2 : Int) ^ 12).toNat with hb_def
  have ha : a < 2 ^ 26 := by omega
  have hc : c < 2 ^ 26 := by omega
  have hb : b < 2 ^ 12 := by omega
  rw [Nat.shiftLeft_eq, Nat.shiftLeft_eq]
  rw [Nat.lor_comm (a * 2 ^ 38) (c * 2 ^ 12)]
  have h1 : c * 2 ^ 12 < 2 ^ 38 := by omega
  rw [lor_low_high a h1]
  rw [Nat.lor_comm _ b]
  have h2 : a * 2 ^ 38 + c * 2 ^ 12 = (a * 2 ^ 26 + c) * 2 ^ 12 := by ring
  rw [h2, lor_low_high (a * 2 ^ 26 + c) hb]

/-- C4: `Position::encode` packs `(x, y, z)` into the single big-endian
64-bit word `((x & 0x3FFFFFF) << 38) | ((z & 0x3FFFFFF) << 12) | (y & 0xFFF)`
(the disjoint fields sum), and for every `x, z` in `[-2^25, 2^25)` and `y`
in `[-2^11, 2^11)`, `Position::decode` of the encoding returns exactly
`(x, y, z)`, the signs being recovered by the arithmetic shifts. -/
theorem position_encode_decode_roundtrip :
    (∀ x y z : Int, Position.encode x y z =
      beBytes 8 ((x % (2 : Int) ^ 26).toNat * 2 ^ 38 +
        (z % (2 : Int) ^ 26).toNat * 2 ^ 12 + (y % (2 : Int) ^ 12).toNat)) ∧
    (∀ x y z : Int, -(2 ^ 25) ≤ x → x < 2 ^ 25 → -(2 ^ 25) ≤ z → z < 2 ^ 25 →
      -(2 ^ 11) ≤ y → y < 2 ^ 11 →
      Position.decode (Position.encode x y z) = .ok ((x, y, z), [])) := by
  constructor
  · intro x y z
    unfold Position.encode
    rw [positionPattern_eq]
  · intro x y z hx1 hx2 hz1 hz2 hy1 hy2
    unfold Position.encode Position.decode
    rw [positionPattern_eq]
    set a := (x % (2 : Int) ^ 26).toNat with ha_def
    set c := (z % (2 : Int) ^ 26).toNat with hc_def
    set b := (y % (2 : Int) ^ 12).toNat with hb_def
    have ha : a < 2 ^ 26 := by omega
    have hc : c < 2 ^ 26 := by omega
    have hb : b < 2 ^ 12 := by omega
    have hn : a * 2 ^ 38 + c * 2 ^ 12 + b < 256 ^ 8 := by
      have h8 : (256 : Nat) ^ 8 = 2 ^ 64 := by norm_num
      omega
    have hread := readBE_beBytes 8 (a * 2 ^ 38 + c * 2 ^ 12 + b) [] hn
    rw [List.append_nil] at hread
    have hxf : toI32of64 (asr64 (a * 2 ^ 38 + c * 2 ^ 12 + b) 38) = x := by
      simp only [toI32of64, asr64, toI64, toI32]
      split_ifs <;> omega
    have hyf : toI16of64 (asr64 (((a * 2 ^ 38 + c * 2 ^ 12 + b) <<< 52) % 2 ^ 64)
        52) = y := by
      simp only [Nat.shiftLeft_eq, toI16of64, asr64, toI64, toI16]
      split_ifs <;> omega
    have hzf : toI32of64 (asr64 (((a * 2 ^ 38 + c * 2 ^ 12 + b) <<< 26) % 2 ^ 64)
        38) = z := by
      simp only [Nat.shiftLeft_eq, toI32of64, asr64, toI64, toI32]
      split_ifs <;> omega
    simp only [hread, hxf, hyf, hzf]

/-- Witness for C4 at `(x, y, z) = (-1, -1, 1)`. -/
theorem position_encode_decode_roundtrip_witness :
    Position.decode (Position.encode (-1) (-1) 1) = .ok (((-1), (-1), 1), []) :=
  position_encode_decode_roundtrip.2 (-1) (-1) 1 (by norm_num) (by norm_num)
    (by norm_num) (by norm_num) (by norm_num) (by norm_num)

/-! ### BoundedString (`ocelot-protocol/src/codec/mod.rs`, lines 24-40, and
the identical `ocelot-types/src/lib.rs`, lines 22-35)

`BoundedString::<MAX>::new` counts the UTF-16 code units of the string
(`encode_utf16().count()`: one unit for a scalar value below `0x10000`, two
for a supplementary character) and its UTF-8 byte length (`s.len()`), and
fails with `InvalidData` when `utf16_len > MAX`, `utf16_len > 32767`
(`MAX_LENGTH`) or `byte_len > MAX * 3 + 3`.  `MAX` is a `u64`, so the Rust
expression `(MAX * 3) + 3` wraps modulo `2 ^ 64`. -/

/-- The UTF-16 code-unit count of a string (Rust `encode_utf16().count()`). -/
def utf16Len (s : String) : Nat :=
  s.data.foldl (fun n c => n + (if c.toNat < 0x10000 then 1 else 2)) 0

/-- The UTF-8 byte length of a string (Rust `s.len()`). -/
def utf8Len (s : String) : Nat := s.data.foldl (fun n c => n + c.utf8Size) 0

namespace BoundedString

/-- `BoundedString::<MAX>::new`. -/
def new (MAX : Nat) (s : String) : Except DecodeError String :=
  if utf16Len s > MAX ∨ utf16Len s > 32767 ∨ utf8Len s > (MAX * 3 + 3) % 2 ^ 64
  then .error .invalidData
  else .ok s

end BoundedString

/-- C7: `BoundedString::<MAX>::new(s)` succeeds exactly when the UTF-16
code-unit count of `s` is at most `MAX` and at most 32767 and the UTF-8
byte length of `s` is at most `MAX * 3 + 3`, and fails with `InvalidData`
otherwise (for every `MAX` whose bound expression does not wrap in `u64`);
in particular `BoundedString::<16>::new` of any string with 17 UTF-16 code
units fails. -/
theorem boundedString_new_validates :
    (∀ MAX s, MAX * 3 + 3 < 2 ^ 64 →
      (BoundedString.new MAX s = .ok s ↔
        utf16Len s ≤ MAX ∧ utf16Len s ≤ 32767 ∧ utf8Len s ≤ MAX * 3 + 3)) ∧
    (∀ MAX s, MAX * 3 + 3 < 2 ^ 64 →
      ¬ (utf16Len s ≤ MAX ∧ utf16Len s ≤ 32767 ∧ utf8Len s ≤ MAX * 3 + 3) →
      BoundedString.new MAX s = .error .invalidData) ∧
    (∀ s, utf16Len s = 17 → BoundedString.new 16 s = .error .invalidData) := by
  refine ⟨?_, ?_, ?_⟩
  · intro MAX s hM
    unfold BoundedString.new
    rw [Nat.mod_eq_of_lt hM]
    constructor
    · intro h
      by_cases hc : utf16Len s > MAX ∨ utf16Len s > 32767 ∨ utf8Len s > MAX * 3 + 3
      · rw [if_pos hc] at h
        exact absurd h (by simp)
      · omega
    · intro h
      rw [if_neg (by omega)]
  · intro MAX s hM h
    unfold BoundedString.new
    rw [Nat.mod_eq_of_lt hM]
    rw [if_pos (by omega)]
  · intro s h17
    unfold BoundedString.new
    rw [if_pos (by omega)]

/-- Witness for C7: a 3-character string is accepted with `MAX = 16`, a
17-character ASCII string is rejected. -/
theorem boundedString_new_validates_witness :
    (BoundedString.new 16 (String.mk ['a', 'b', 'c']) =
      .ok (String.mk ['a', 'b', 'c'])) ∧
    BoundedString.new 16 (String.mk (List.replicate 17 'a')) =
      .error .invalidData :=
  ⟨((boundedString_new_validates.1 16 (String.mk ['a', 'b', 'c'])
      (by norm_num)).2 (by refine ⟨?_, ?_, ?_⟩ <;> decide)),
   boundedString_new_validates.2.2 (String.mk (List.replicate 17 'a'))
      (by decide)⟩

/-! ### PrefixedArray / BoundedPrefixedArray
(`ocelot-protocol/src/codec/mod.rs`, lines 159-212)

The element codec is abstracted as an encoding function
`enc : A -> List Nat` and a decoding function
`dec : List Nat -> Except DecodeError (A × List Nat)`.
`PrefixedArray::encode` writes `VarInt(len as i32)` then each element;
`PrefixedArray::decode_items` reads `size` elements in order.
`BoundedPrefixedArray::encode` first fails with `InvalidData` when
`len > MAX as usize` (`MAX : u64`, so no truncation on a 64-bit target);
`BoundedPrefixedArray::decode` reads the VarInt size, fails with
`InvalidData` when `size > MAX as i32` (a truncating cast), and only then
reads `size as usize` elements (an `i32 -> usize` cast, i.e. sign extension
to 64 bits). -/

def decodeItems (dec : List Nat → Except DecodeError (α × List Nat)) :
    Nat → List Nat → Except DecodeError (List α × List Nat)
  | 0, bs => .ok ([], bs)
  | n + 1, bs =>
    match dec bs with
    | .error e => .error e
    | .ok (a, rest) =>
      match decodeItems dec n rest with
      | .error e => .error e
      | .ok (as, r2) => .ok (a :: as, r2)

namespace PrefixedArray

/-- `PrefixedArray::encode`: the VarInt length followed by the element
encodings, accumulated in order (`try_for_each`).  `l.length as i32 as u32`
equals `l.length % 2 ^ 32`, which `VarInt.encode` already applies. -/
def encode (enc : α → List Nat) (l : List α) : List Nat :=
  l.foldl (fun acc a => acc ++ enc a) (VarInt.encode l.length)

/-- `PrefixedArray::decode`: read the VarInt size, then that many items
(`size as usize`: the `i32` sign-extended to 64 bits). -/
def decode (dec : List Nat → Except DecodeError (α × List Nat))
    (bs : List Nat) : Except DecodeError (List α × List Nat) :=
  match VarInt.decode bs with
  | .error e => .error e
  | .ok (size, rest) => decodeItems dec (toU64 size) rest

end PrefixedArray

namespace BoundedPrefixedArray

/-- `BoundedPrefixedArray::<T, MAX>::encode`. -/
def encode (MAX : Nat) (enc : α → List Nat) (l : List α) :
    Except DecodeError (List Nat) :=
  if l.length > MAX then .error .invalidData
  else .ok (PrefixedArray.encode enc l)

/-- `BoundedPrefixedArray::<T, MAX>::decode`: the size check compares the
decoded `i32` against `MAX as i32` (truncating `u64 -> i32` cast) before
any element is read. -/
def decode (MAX : Nat) (dec : List Nat → Except DecodeError (α × List Nat))
    (bs : List Nat) : Except DecodeError (List α × List Nat) :=
  match VarInt.decode bs with
  | .error e => .error e
  | .ok (size, rest) =>
    if size > toI32 (MAX % 2 ^ 32) then .error .invalidData
    else decodeItems dec (toU64 size) rest

end BoundedPrefixedArray

/-- C8: `BoundedPrefixedArray<T, MAX>` rejects both directions when the
element count exceeds MAX: encoding a list longer than MAX fails with
`InvalidData`, and decoding an input whose VarInt length prefix is any
representable value above MAX fails with `InvalidData` before any element
is read — the result is the error for every element decoder and every
byte tail. -/
theorem boundedPrefixedArray_rejects_over_max :
    (∀ (MAX : Nat) (enc : Nat → List Nat) (l : List Nat), l.length > MAX →
      BoundedPrefixedArray.encode MAX enc l = .error .invalidData) ∧
    (∀ (MAX : Nat) (s : Int)
      (dec : List Nat → Except DecodeError (Nat × List Nat)) (rest : List Nat),
      (MAX : Int) < s → s < 2 ^ 31 →
      BoundedPrefixedArray.decode MAX dec (VarInt.encode s ++ rest) =
        .error .invalidData) := by
  constructor
  · intro MAX enc l hlen
    unfold BoundedPrefixedArray.encode
    rw [if_pos hlen]
  · intro MAX s dec rest hMs hs
    unfold BoundedPrefixedArray.decode
    have hMlt : MAX < 2 ^ 31 := by omega
    rw [varIntDecode_encode s rest (by omega) hs]
    have hMAX : toI32 (MAX % 2 ^ 32) = (MAX : Int) := by
      unfold toI32
      rw [Nat.mod_eq_of_lt (by omega)]
      rw [if_pos hMlt]
    change (if s > toI32 (MAX % 2 ^ 32) then Except.error DecodeError.invalidData
      else decodeItems dec (toU64 s) rest) = Except.error DecodeError.invalidData
    rw [hMAX, if_pos (show s > (MAX : Int) from hMs)]

/-- Witness for C8 with `MAX = 2`, a 3-element list, size prefix 3, and a
one-byte element decoder. -/
theorem boundedPrefixedArray_rejects_over_max_witness :
    BoundedPrefixedArray.encode 2 (fun b => [b % 256]) [1, 2, 3] =
      .error .invalidData ∧
    BoundedPrefixedArray.decode 2
      (fun bs => match bs with
        | [] => .error .eof
        | b :: r => .ok (b, r)) (VarInt.encode 3 ++ [9, 9, 9]) =
      .error .invalidData :=
  ⟨boundedPrefixedArray_rejects_over_max.1 2 (fun b => [b % 256]) [1, 2, 3]
      (by decide),
   boundedPrefixedArray_rejects_over_max.2 2 3
      (fun bs => match bs with
        | [] => .error .eof
        | b :: r => .ok (b, r)) [9, 9, 9] (by norm_num) (by norm_num)⟩

/-! ### Connection state machine (`ocelot/src/main.rs`, lines 49-67 and
154-459)

`handle_connection` loops reading one frame at a time and dispatches on
`(self.state, packet_id)`.  The only statements that assign `self.state`
are: the Handshake arm (`HANDSHAKING`, id 0x00), which sets the state from
the decoded intent; the LoginAcknowledged arm (`LOGIN`, id 0x03), which
sets `CONFIGURATION`; and the AcknowledgeFinishConfiguration arm
(`CONFIGURATION`, id 0x03), which sets `PLAY`.  The only `break` inside the
dispatch is the verify-token mismatch in the EncryptionResponse arm
(`LOGIN`, id 0x01); every unmatched packet id only logs a warning and the
loop continues.  The `PLAY` arms (ClientTickEnd, whose packet struct lives
in the `play::serverbound` module, and the unknown-id arm) neither assign
the state nor break, so the `PLAY` case is a single unconditional arm
here.  The data a handler consults beyond the id is abstracted into the
decoded `intent` field (only read by the Handshake arm) and the
verify-token comparison result `tokenOk` (only read by the
EncryptionResponse arm). -/

inductive ConnectionState where
  | HANDSHAKING
  | STATUS
  | LOGIN
  | CONFIGURATION
  | PLAY
deriving DecidableEq, Repr

/-- The `Intent` enum (`ocelot-protocol/src/packet/types.rs`), decoded
"via VarInt" with explicit discriminants 1, 2, 3. -/
inductive Intent where
  | Status
  | Login
  | Transfer
deriving DecidableEq, Repr

/-- The derived `MinecraftCodec` decode for `Intent`: map the discriminant
read as a VarInt to the variant; any other value fails. -/
def Intent.ofVarInt (n : Int) : Option Intent :=
  if n = 1 then some .Status
  else if n = 2 then some .Login
  else if n = 3 then some .Transfer
  else none

/-- `main` creates every connection with `state: ConnectionState::HANDSHAKING`. -/
def initialConnectionState : ConnectionState := .HANDSHAKING

structure StepResult where
  state : ConnectionState
  continues : Bool
deriving DecidableEq, Repr

namespace Connection

/-- One iteration of the `handle_connection` dispatch, observed on the
connection state and on whether the loop continues. -/
def step (state : ConnectionState) (packetId : Int) (intent : Intent)
    (tokenOk : Bool) : StepResult :=
  match state with
  | .HANDSHAKING =>
    if packetId = 0x00 then
      match intent with
      | .Status => ⟨.STATUS, true⟩
      | .Login => ⟨.LOGIN, true⟩
      | .Transfer => ⟨.LOGIN, true⟩
    else ⟨state, true⟩
  | .STATUS => ⟨state, true⟩
  | .LOGIN =>
    if packetId = 0x00 then ⟨state, true⟩
    else if packetId = 0x01 then ⟨state, tokenOk⟩
    else if packetId = 0x03 then ⟨.CONFIGURATION, true⟩
    else ⟨state, true⟩
  | .CONFIGURATION =>
    if packetId = 0x00 then ⟨state, true⟩
    else if packetId = 0x02 then ⟨state, true⟩
    else if packetId = 0x07 then ⟨state, true⟩
    else if packetId = 0x03 then ⟨.PLAY, true⟩
    else ⟨state, true⟩
  | .PLAY => ⟨state, true⟩

end Connection

/-- The serverbound packet ids with a dedicated match arm in each state's
dispatch (`handle_connection`).  The `STATUS` dispatch has only the
unknown-id arm; the `PLAY` set is left empty, which is sound for the
unknown-id property because the one `PLAY` arm with a dedicated id
(ClientTickEnd) also leaves the state unchanged and continues. -/
def legalPacketId : ConnectionState → Int → Prop
  | .HANDSHAKING, id => id = 0x00
  | .STATUS, _ => False
  | .LOGIN, id => id = 0x00 ∨ id = 0x01 ∨ id = 0x03
  | .CONFIGURATION, id => id = 0x00 ∨ id = 0x02 ∨ id = 0x03 ∨ id = 0x07
  | .PLAY, _ => False

/-- C2: from the initial `Handshaking` state, the per-connection state
changes only by these steps: a Handshake packet (id 0x00) sets it to
`Status` when the decoded intent is 1 and to `Login` when it is 2 or 3; a
LoginAcknowledged packet (id 0x03 in `Login`) sets it to `Configuration`;
an AckFinishConfiguration packet (id 0x03 in `Configuration`) sets it to
`Play`; a packet whose id is not legal in the current state leaves the
state unchanged and the connection continues; and no other step changes
the state. -/
theorem connection_state_machine :
    initialConnectionState = .HANDSHAKING ∧
    (∀ tok it, Intent.ofVarInt 1 = some it →
      Connection.step .HANDSHAKING 0x00 it tok = ⟨.STATUS, true⟩) ∧
    (∀ tok it n, (n = 2 ∨ n = 3) → Intent.ofVarInt n = some it →
      Connection.step .HANDSHAKING 0x00 it tok = ⟨.LOGIN, true⟩) ∧
    (∀ tok it, Connection.step .LOGIN 0x03 it tok = ⟨.CONFIGURATION, true⟩) ∧
    (∀ tok it, Connection.step .CONFIGURATION 0x03 it tok = ⟨.PLAY, true⟩) ∧
    (∀ s id it tok, ¬ legalPacketId s id →
      Connection.step s id it tok = ⟨s, true⟩) ∧
    (∀ s id it tok, (Connection.step s id it tok).state ≠ s →
      (s = .HANDSHAKING ∧ id = 0x00) ∨ (s = .LOGIN ∧ id = 0x03) ∨
      (s = .CONFIGURATION ∧ id = 0x03)) := by
  refine ⟨rfl, ?_, ?_, ?_, ?_, ?_, ?_⟩
  · intro tok it h
    have : it = .Status := by
      simp [Intent.ofVarInt] at h
      exact h.symm
    subst this
    rfl
  · intro tok it n hn h
    rcases hn with h2 | h3
    · subst h2
      have : it = .Login := by
        simp [Intent.ofVarInt] at h
        exact h.symm
      subst this
      rfl
    · subst h3
      have : it = .Transfer := by
        simp [Intent.ofVarInt] at h
        exact h.symm
      subst this
      rfl
  · intro tok it
    rfl
  · intro tok it
    rfl
  · intro s id it tok hleg
    cases s
    · simp only [legalPacketId] at hleg
      simp only [Connection.step]
      rw [if_neg hleg]
    · rfl
    · simp only [legalPacketId] at hleg
      push_neg at hleg
      obtain ⟨h0, h1, h3⟩ := hleg
      simp only [Connection.step]
      rw [if_neg h0, if_neg h1, if_neg h3]
    · simp only [legalPacketId] at hleg
      push_neg at hleg
      obtain ⟨h0, h2, h3, h7⟩ := hleg
      simp only [Connection.step]
      rw [if_neg h0, if_neg h2, if_neg h7, if_neg h3]
    · rfl
  · intro s id it tok hchange
    cases s <;> simp only [Connection.step] at hchange
    · left
      refine ⟨rfl, ?_⟩
      by_contra h0
      rw [if_neg h0] at hchange
      exact hchange rfl
    · exact absurd rfl hchange
    · right
      left
      refine ⟨rfl, ?_⟩
      by_cases h0 : id = 0x00
      · rw [if_pos h0] at hchange
        exact absurd rfl hchange
      · rw [if_neg h0] at hchange
        by_cases h1 : id = 0x01
        · rw [if_pos h1] at hchange
          exact absurd rfl hchange
        · rw [if_neg h1] at hchange
          by_cases h3 : id = 0x03
          · exact h3
          · rw [if_neg h3] at hchange
            exact absurd rfl hchange
    · right
      right
      refine ⟨rfl, ?_⟩
      by_cases h0 : id = 0x00
      · rw [if_pos h0] at hchange
        exact absurd rfl hchange
      · rw [if_neg h0] at hchange
        by_cases h2 : id = 0x02
        · rw [if_pos h2] at hchange
          exact absurd rfl hchange
        · rw [if_neg h2] at hchange
          by_cases h7 : id = 0x07
          · rw [if_pos h7] at hchange
            exact absurd rfl hchange
          · rw [if_neg h7] at hchange
            by_cases h3 : id = 0x03
            · exact h3
            · rw [if_neg h3] at hchange
              exact absurd rfl hchange
    · exact absurd rfl hchange

/-- Witness for C2: the Status handshake at intent discriminant 1, and an
unknown id 0x42 in the Login state. -/
theorem connection_state_machine_witness :
    Connection.step .HANDSHAKING 0x00 Intent.Status true = ⟨.STATUS, true⟩ ∧
    Connection.step .LOGIN 0x42 Intent.Status true = ⟨.LOGIN, true⟩ :=
  ⟨connection_state_machine.2.1 true Intent.Status (by decide),
   connection_state_machine.2.2.2.2.2.1 .LOGIN 0x42 Intent.Status true
     (by simp [legalPacketId])⟩

/-! ### The KnownPacks handler (`ocelot/src/main.rs`, lines 349-390)

On a serverbound KnownPacks packet in the Configuration state the handler
iterates over the static registry table `SYNCED_REGISTRIES` (an immutable
list of registries embedded at build time, each with a registry id and an
ordered list of `(name, nbt_bytes)` entries, the bytes pre-encoded in
network-NBT framing).  For each registry, in table order, it builds one
`RegistryEntry` per entry — `id` from the entry name, `data =
Some(entry.nbt_bytes.to_vec())` — pushes them in order, sends one
`RegistryData(registry_id, entries)` packet, and after the loop sends one
`FinishConfiguration` packet.  The `BoundedString`/`ResourceLocation`
conversions of the well-formed build-time ids are the identity on the
string and are elided (their `unwrap`s only panic on malformed build
data). -/

structure StaticRegistryEntry where
  name : String
  nbtBytes : List Nat

structure StaticRegistry where
  registryId : String
  entries : List StaticRegistryEntry

/-- The packets sent by the KnownPacks handler, in send order. -/
inductive SentPacket where
  | registryData (registryId : String)
      (entries : List (String × Option (List Nat)))
  | finishConfiguration
deriving DecidableEq

/-- The KnownPacks handler's output: the two nested `for` loops accumulate
entry records and sent packets in order, then `FinishConfiguration` is
sent. -/
def handleKnownPacks (regs : List StaticRegistry) : List SentPacket :=
  (regs.foldl (fun sent registry =>
    sent ++ [SentPacket.registryData registry.registryId
      (registry.entries.foldl
        (fun entries entry => entries ++ [(entry.name, some entry.nbtBytes)])
        [])]) []) ++ [SentPacket.finishConfiguration]

/-- The spec's reading of the handler ("for each entry in the static
registry table, send one RegistryData packet whose payload is the
pre-encoded network-NBT blob; after all registries, send
FinishConfiguration"): one RegistryData per registry in table order, each
entry paired with its blob, followed by exactly one FinishConfiguration. -/
def knownPacksResponseSpec (regs : List StaticRegistry) : List SentPacket :=
  regs.map (fun registry => SentPacket.registryData registry.registryId
    (registry.entries.map (fun entry => (entry.name, some entry.nbtBytes)))) ++
  [SentPacket.finishConfiguration]

theorem foldl_append_singleton (f : α → β) (l : List α) :
    ∀ acc : List β, l.foldl (fun s a => s ++ [f a]) acc = acc ++ l.map f := by
  induction l with
  | nil => intro acc; simp
  | cons a l ih =>
    intro acc
    simp only [List.foldl_cons, List.map_cons]
    rw [ih (acc ++ [f a])]
    simp

/-- C3: on serverbound KnownPacks the handler sends exactly one
RegistryData packet per registry of the static registry table, in table
order, each entry carrying its pre-encoded network-NBT blob, and after all
registries exactly one FinishConfiguration packet: the accumulated sends
equal the spec's map followed by the single terminator. -/
theorem knownPacks_sends_registries_then_finish :
    ∀ regs : List StaticRegistry,
      handleKnownPacks regs = knownPacksResponseSpec regs := by
  intro regs
  unfold handleKnownPacks knownPacksResponseSpec
  rw [foldl_append_singleton
    (fun registry => SentPacket.registryData registry.registryId
      (registry.entries.foldl
        (fun entries entry => entries ++ [(entry.name, some entry.nbtBytes)])
        [])) regs []]
  rw [List.nil_append]
  congr 1
  apply List.map_congr_left
  intro registry _
  congr 1
  rw [foldl_append_singleton (fun entry => (entry.name, some entry.nbtBytes))
    registry.entries []]
  rw [List.nil_append]

/-! ### NBT (`ocelot-nbt/src/lib.rs`)

Rust `String`s crossing the NBT codec are modelled by their UTF-8 byte
content (`List Nat`); `String::from_utf8` becomes a UTF-8 validity check
on the byte list.  `f32`/`f64` payloads are carried as their raw 4/8-byte
big-endian bit patterns (the codec only moves bytes).  `Tag::decode_binary`
recurses through `List` and `Compound` payloads; the recursion is driven by
an explicit fuel parameter (a modeling artifact: exhausting it yields
`InvalidData`, which no theorem below depends on). -/

/-- A UTF-8 continuation byte, `0x80..=0xBF`. -/
def utf8Cont (b : Nat) : Bool := 128 ≤ b && b ≤ 191

/-- UTF-8 validity of a byte list, as checked by Rust's
`String::from_utf8` (RFC 3629: no surrogates, no overlong forms, max
U+10FFFF). -/
def utf8Valid : List Nat → Bool
  | [] => true
  | b :: rest =>
    if b ≤ 0x7F then utf8Valid rest
    else if 0xC2 ≤ b ∧ b ≤ 0xDF then
      match rest with
      | c1 :: r => utf8Cont c1 && utf8Valid r
      | [] => false
    else if b = 0xE0 then
      match rest with
      | c1 :: c2 :: r =>
        (0xA0 ≤ c1 && c1 ≤ 0xBF) && utf8Cont c2 && utf8Valid r
      | _ => false
    else if (0xE1 ≤ b ∧ b ≤ 0xEC) ∨ b = 0xEE ∨ b = 0xEF then
      match rest with
      | c1 :: c2 :: r => utf8Cont c1 && utf8Cont c2 && utf8Valid r
      | _ => false
    else if b = 0xED then
      match rest with
      | c1 :: c2 :: r =>
        (0x80 ≤ c1 && c1 ≤ 0x9F) && utf8Cont c2 && utf8Valid r
      | _ => false
    else if b = 0xF0 then
      match rest with
      | c1 :: c2 :: c3 :: r =>
        (0x90 ≤ c1 && c1 ≤ 0xBF) && utf8Cont c2 && utf8Cont c3 && utf8Valid r
      | _ => false
    else if 0xF1 ≤ b ∧ b ≤ 0xF3 then
      match rest with
      | c1 :: c2 :: c3 :: r =>
        utf8Cont c1 && utf8Cont c2 && utf8Cont c3 && utf8Valid r
      | _ => false
    else if b = 0xF4 then
      match rest with
      | c1 :: c2 :: c3 :: r =>
        (0x80 ≤ c1 && c1 ≤ 0x8F) && utf8Cont c2 && utf8Cont c3 && utf8Valid r
      | _ => false
    else false

/-- `impl NbtBinaryCodec for String`, encode side (and the identical
`Tag::encode_string`): write `data.len() as u16` — the byte length reduced
modulo `2 ^ 16` by the truncating cast — as two big-endian bytes, then the
raw UTF-8 bytes. -/
def nbtStringEncode (s : List Nat) : List Nat :=
  beBytes 2 (s.length % 2 ^ 16) ++ s

/-- `impl NbtBinaryCodec for String`, decode side: read the `u16` length,
read up to that many bytes (`reader.take(len).read_to_end`), fail with
`InvalidData` when fewer are available, then validate UTF-8. -/
def nbtStringDecode (bs : List Nat) : Except DecodeError (List Nat × List Nat) :=
  match readBE 2 bs with
  | .error e => .error e
  | .ok (len, rest) =>
    if (rest.take len).length ≠ len then .error .invalidData
    else if utf8Valid (rest.take len) then .ok (rest.take len, rest.drop len)
    else .error .invalidData

/-- The NBT tag-type discriminant byte. -/
inductive TagType where
  | End
  | Byte
  | Short
  | Int
  | Long
  | Float
  | Double
  | ByteArray
  | String
  | List
  | Compound
  | IntArray
  | LongArray
deriving DecidableEq, Repr

namespace TagType

/-- `TagType::from_id`. -/
def fromId (id : Nat) : Option TagType :=
  match id with
  | 0 => some .End
  | 1 => some .Byte
  | 2 => some .Short
  | 3 => some .Int
  | 4 => some .Long
  | 5 => some .Float
  | 6 => some .Double
  | 7 => some .ByteArray
  | 8 => some .String
  | 9 => some .List
  | 10 => some .Compound
  | 11 => some .IntArray
  | 12 => some .LongArray
  | _ => none

/-- `TagType::as_id`. -/
def asId : TagType → Nat
  | .End => 0
  | .Byte => 1
  | .Short => 2
  | .Int => 3
  | .Long => 4
  | .Float => 5
  | .Double => 6
  | .ByteArray => 7
  | .String => 8
  | .List => 9
  | .Compound => 10
  | .IntArray => 11
  | .LongArray => 12

end TagType

/-- `impl NbtBinaryCodec for TagType`, decode side: read one byte, map it
through `from_id`, fail with `InvalidData` on an unknown id. -/
def tagTypeDecodeBinary (bs : List Nat) : Except DecodeError (TagType × List Nat) :=
  match bs with
  | [] => .error .eof
  | b :: rest =>
    match TagType.fromId b with
    | some t => .ok (t, rest)
    | none => .error .invalidData

/-- The NBT tag sum type (`Tag` in `ocelot-nbt`; `End` is deliberately not
representable).  Float/Double carry their big-endian bit patterns; strings
carry UTF-8 bytes; a Compound carries its entries as an association list
standing in for the `HashMap` (inserts replace an existing key). -/
inductive Tag where
  | Byte (v : Int)
  | Short (v : Int)
  | Int (v : Int)
  | Long (v : Int)
  | Float (bits : Nat)
  | Double (bits : Nat)
  | ByteArray (vs : List Int)
  | String (bytes : List Nat)
  | List (t : TagType) (vs : List Tag)
  | Compound (entries : List (List Nat × Tag))
  | IntArray (vs : List Int)
  | LongArray (vs : List Int)

/-- `HashMap::insert` on the association-list model: replace the value at
an existing key, else add the entry. -/
def assocInsert (k : List Nat) (v : Tag) :
    List (List Nat × Tag) → List (List Nat × Tag)
  | [] => [(k, v)]
  | (k2, v2) :: rest =>
    if k2 = k then (k, v) :: rest else (k2, v2) :: assocInsert k v rest

/-- `i8::decode_binary` (one big-endian byte, signed). -/
def i8Decode (bs : List Nat) : Except DecodeError (Int × List Nat) :=
  match readBE 1 bs with
  | .error e => .error e
  | .ok (n, r) => .ok (toSigned 8 n, r)

/-- `i16::decode_binary`. -/
def i16Decode (bs : List Nat) : Except DecodeError (Int × List Nat) :=
  match readBE 2 bs with
  | .error e => .error e
  | .ok (n, r) => .ok (toSigned 16 n, r)

/-- `i32::decode_binary`. -/
def i32Decode (bs : List Nat) : Except DecodeError (Int × List Nat) :=
  match readBE 4 bs with
  | .error e => .error e
  | .ok (n, r) => .ok (toSigned 32 n, r)

/-- `i64::decode_binary`. -/
def i64Decode (bs : List Nat) : Except DecodeError (Int × List Nat) :=
  match readBE 8 bs with
  | .error e => .error e
  | .ok (n, r) => .ok (toSigned 64 n, r)

/-- `impl NbtBinaryCodec for Vec<T>`, decode side: a signed 32-bit
big-endian length, cast `as usize` (sign extension to 64 bits), then that
many elements. -/
def nbtVecDecode (elemDec : List Nat → Except DecodeError (α × List Nat))
    (bs : List Nat) : Except DecodeError (List α × List Nat) :=
  match i32Decode bs with
  | .error e => .error e
  | .ok (len, rest) => decodeItems elemDec (toU64 len) rest

/-- The `TagType::Compound` arm of `Tag::decode_binary`: read (tag-type,
name, payload) triples into the map until an `End` byte.  `tagDec` is the
payload decoder (`Tag::decode_binary` at the remaining fuel); the loop
carries its own fuel, bounding the number of entries. -/
def tagDecodeCompound
    (tagDec : TagType → List Nat → Except DecodeError (Tag × List Nat)) :
    Nat → List (List Nat × Tag) → List Nat → Except DecodeError (Tag × List Nat)
  | 0, _, _ => .error .invalidData
  | fuel + 1, acc, bs =>
    match tagTypeDecodeBinary bs with
    | .error e => .error e
    | .ok (t, r1) =>
      if t = .End then .ok (.Compound acc, r1)
      else
        match nbtStringDecode r1 with
        | .error e => .error e
        | .ok (name, r2) =>
          match tagDec t r2 with
          | .error e => .error e
          | .ok (tag, r3) =>
            tagDecodeCompound tagDec fuel (assocInsert name tag acc) r3

/-- `Tag::decode_binary`: decode one payload of the given tag type.
Decoding a payload of type `End` fails with `InvalidData`
("Trying to deserialize tag of type End"). -/
def tagDecodeBinary : Nat → TagType → List Nat → Except DecodeError (Tag × List Nat)
  | 0, _, _ => .error .invalidData
  | fuel + 1, t, bs =>
    match t with
    | .End => .error .invalidData
    | .Byte =>
      match i8Decode bs with
      | .error e => .error e
      | .ok (v, r) => .ok (.Byte v, r)
    | .Short =>
      match i16Decode bs with
      | .error e => .error e
      | .ok (v, r) => .ok (.Short v, r)
    | .Int =>
      match i32Decode bs with
      | .error e => .error e
      | .ok (v, r) => .ok (.Int v, r)
    | .Long =>
      match i64Decode bs with
      | .error e => .error e
      | .ok (v, r) => .ok (.Long v, r)
    | .Float =>
      match readBE 4 bs with
      | .error e => .error e
      | .ok (bits, r) => .ok (.Float bits, r)
    | .Double =>
      match readBE 8 bs with
      | .error e => .error e
      | .ok (bits, r) => .ok (.Double bits, r)
    | .ByteArray =>
      match nbtVecDecode i8Decode bs with
      | .error e => .error e
      | .ok (vs, r) => .ok (.ByteArray vs, r)
    | .String =>
      match nbtStringDecode bs with
      | .error e => .error e
      | .ok (s, r) => .ok (.String s, r)
    | .List =>
      match tagTypeDecodeBinary bs with
      | .error e => .error e
      | .ok (tt, r1) =>
        match i32Decode r1 with
        | .error e => .error e
        | .ok (len, r2) =>
          match decodeItems (tagDecodeBinary fuel tt) (toU64 len) r2 with
          | .error e => .error e
          | .ok (tags, r3) => .ok (.List tt tags, r3)
    | .Compound => tagDecodeCompound (tagDecodeBinary fuel) (fuel + 1) [] bs
    | .IntArray =>
      match nbtVecDecode i32Decode bs with
      | .error e => .error e
      | .ok (vs, r) => .ok (.IntArray vs, r)
    | .LongArray =>
      match nbtVecDecode i64Decode bs with
      | .error e => .error e
      | .ok (vs, r) => .ok (.LongArray vs, r)

/-- A `(name, tag)` pair; the name is the UTF-8 bytes of the Rust `String`. -/
structure NamedTag where
  name : List Nat
  tag : Tag

/-- `NamedTag::decode_binary` (traditional framing): read the root tag
type; an `End` root yields `Ok(None)`; otherwise read the root name and the
payload. -/
def NamedTag.decodeBinary (fuel : Nat) (bs : List Nat) :
    Except DecodeError (Option NamedTag × List Nat) :=
  match tagTypeDecodeBinary bs with
  | .error e => .error e
  | .ok (t, r1) =>
    if t = .End then .ok (none, r1)
    else
      match nbtStringDecode r1 with
      | .error e => .error e
      | .ok (name, r2) =>
        match tagDecodeBinary fuel t r2 with
        | .error e => .error e
        | .ok (tag, r3) => .ok (some ⟨name, tag⟩, r3)

/-- `NamedTag::decode_binary_from_network` (network framing): same, but no
name is read; an `End` root likewise yields `Ok(None)`. -/
def NamedTag.decodeBinaryFromNetwork (fuel : Nat) (bs : List Nat) :
    Except DecodeError (Option NamedTag × List Nat) :=
  match tagTypeDecodeBinary bs with
  | .error e => .error e
  | .ok (t, r1) =>
    if t = .End then .ok (none, r1)
    else
      match tagDecodeBinary fuel t r1 with
      | .error e => .error e
      | .ok (tag, r3) => .ok (some ⟨[], tag⟩, r3)

/-- C9 counterexample: decoding the one-byte document `00` — a root
tag-type byte of `End` — is not rejected: both framings return
`Ok(None)`, not an `InvalidData` (or any) error. -/
theorem nbt_root_end_accepted_counterexample :
    NamedTag.decodeBinary 1 [0x00] = .ok (none, []) ∧
    NamedTag.decodeBinaryFromNetwork 1 [0x00] = .ok (none, []) ∧
    NamedTag.decodeBinary 1 [0x00] ≠ .error .invalidData ∧
    NamedTag.decodeBinary 1 [0x00] ≠ .error .eof ∧
    NamedTag.decodeBinaryFromNetwork 1 [0x00] ≠ .error .invalidData ∧
    NamedTag.decodeBinaryFromNetwork 1 [0x00] ≠ .error .eof := by
  refine ⟨rfl, rfl, ?_, ?_, ?_, ?_⟩ <;> exact fun h => Except.noConfusion h

/-- C9 (amended): decoding an NBT document whose root tag-type byte is End
(0x00) succeeds with `Ok(None)` — no named tag — in both the traditional
and the network framing, whatever bytes follow; only decoding a tag
payload of type End (`Tag::decode_binary`) is rejected as `InvalidData`. -/
theorem nbt_root_end_returns_none :
    (∀ fuel bs, NamedTag.decodeBinary fuel (0x00 :: bs) = .ok (none, bs)) ∧
    (∀ fuel bs, NamedTag.decodeBinaryFromNetwork fuel (0x00 :: bs) =
      .ok (none, bs)) ∧
    (∀ fuel bs, tagDecodeBinary fuel TagType.End bs = .error .invalidData) := by
  refine ⟨?_, ?_, ?_⟩
  · intro fuel bs
    rfl
  · intro fuel bs
    rfl
  · intro fuel bs
    cases fuel <;> rfl

/-- C10: the NBT string length prefix is the UTF-8 byte length truncated to
`u16`: the encoder writes `len % 2 ^ 16` big-endian; for every string
shorter than 65536 bytes the prefix is exact and decode inverts encode
(with any tail preserved); for every string of 65536 bytes or more the
encode still succeeds — it is total — but decoding its output can never
return the original string. -/
theorem nbt_string_u16_truncation :
    (∀ s : List Nat, nbtStringEncode s = beBytes 2 (s.length % 2 ^ 16) ++ s) ∧
    (∀ s rest, utf8Valid s = true → s.length < 2 ^ 16 →
      nbtStringDecode (nbtStringEncode s ++ rest) = .ok (s, rest)) ∧
    (∀ s r, 2 ^ 16 ≤ s.length →
      nbtStringDecode (nbtStringEncode s) ≠ .ok (s, r)) := by
  have h2562 : (256 : Nat) ^ 2 = 2 ^ 16 := by norm_num
  refine ⟨fun s => rfl, ?_, ?_⟩
  · intro s rest hval hlen
    unfold nbtStringEncode nbtStringDecode
    rw [List.append_assoc]
    have hread := readBE_beBytes 2 (s.length % 2 ^ 16) (s ++ rest)
      (by rw [h2562]; omega)
    simp only [hread]
    rw [Nat.mod_eq_of_lt hlen]
    rw [List.take_left' rfl, List.drop_left' rfl]
    simp [hval]
  · intro s r hlen hc
    unfold nbtStringEncode nbtStringDecode at hc
    have hread := readBE_beBytes 2 (s.length % 2 ^ 16) s (by rw [h2562]; omega)
    simp only [hread] at hc
    have hlt : s.length % 2 ^ 16 < s.length := by omega
    have htk : (s.take (s.length % 2 ^ 16)).length = s.length % 2 ^ 16 := by
      rw [List.length_take]
      omega
    rw [if_neg (show ¬ (s.take (s.length % 2 ^ 16)).length ≠ s.length % 2 ^ 16
      from fun h => h htk)] at hc
    by_cases hv : utf8Valid (s.take (s.length % 2 ^ 16))
    · rw [if_pos hv] at hc
      injection hc with h1
      injection h1 with h2 h3
      have := congrArg List.length h2
      rw [htk] at this
      omega
    · rw [if_neg hv] at hc
      exact Except.noConfusion hc

/-- Witness for C10: the two-byte string `hi` round-trips with a trailing
byte preserved; a 65536-byte string of `a`s cannot round-trip. -/
theorem nbt_string_u16_truncation_witness :
    nbtStringDecode (nbtStringEncode [104, 105] ++ [7]) = .ok ([104, 105], [7]) ∧
    nbtStringDecode (nbtStringEncode (List.replicate 65536 97)) ≠
      .ok (List.replicate 65536 97, []) :=
  ⟨nbt_string_u16_truncation.2.1 [104, 105] [7] (by decide) (by decide),
   nbt_string_u16_truncation.2.2 (List.replicate 65536 97) []
     (by rw [List.length_replicate]; norm_num)⟩
